import Mathlib

/-!
Verification of the keyword-matching core of the easyApply repository
(`src/core/matcher.py`, class `KeywordMatcher`), shallowly embedded in Lean.

Modelling conventions:
* Python floats are modelled by `ℚ` (every constant involved is decimal).
* Python strings are Lean `String`s; the character-level operations the
  matcher needs (`lower`, `strip`, `split`, substring containment) are
  modelled by executable functions on `List Char` with ASCII semantics.
* Python sets of strings used for consumption tracking are modelled by
  `List String` with membership; set insertion is cons.
* The fuzzy similarity `fuzz.ratio` comes from the external fuzzywuzzy
  library (not part of this repository), so the matcher is parameterised
  by a similarity function `sim : String → String → ℕ` standing for
  `fuzz.ratio` on normalized strings.  A concrete model `fuzzSim`
  (edit-distance based, see below) is used for concrete runs.
* Python set iteration order in `_find_exact_matches` is unspecified; the
  embedding fixes first-occurrence-in-resume-list order.  Every claim
  treated here is insensitive to the order of the exact-match list.
* `FUZZYWUZZY_AVAILABLE` is modelled as true; the logger and the GUI
  colour tags (`MATCH_COLORS`) carry no matching information and are
  omitted from the `Match` record, as is the `metadata` back-reference
  and the human-readable `summary` bundle (no claim concerns them).
-/

namespace EasyApply

/-- A raw keyword record as consumed by `KeywordMatcher.match_keywords`
(a Python dict).  An absent optional field models an absent dict key read
with `.get(key, default)`; a missing `text` key reads as `""`. -/
structure KeywordRecord where
  text : String
  importance : Option ℚ
  type : Option String
  frequency : Option ℕ
deriving DecidableEq, Repr

/-- Helper for Python `str.split()`: accumulates the current word
(reversed) and cuts at whitespace runs, dropping empty pieces. -/
def wordsAux : List Char → List Char → List (List Char)
  | [], acc => if acc = [] then [] else [acc.reverse]
  | c :: cs, acc =>
    if c.isWhitespace then
      if acc = [] then wordsAux cs [] else acc.reverse :: wordsAux cs []
    else wordsAux cs (c :: acc)

/-- Python `s.split()` with no argument: whitespace-separated words. -/
def pyWords (s : String) : List String := (wordsAux s.data []).map String.mk

/-- Python `s.strip()`: remove leading and trailing whitespace. -/
def pyStrip (l : List Char) : List Char :=
  ((l.dropWhile Char.isWhitespace).reverse.dropWhile Char.isWhitespace).reverse

/-- Python `s.lower()` restricted to ASCII case mapping. -/
def pyLower (l : List Char) : List Char := l.map Char.toLower

/-- Python substring containment `s in t` on strings: some contiguous
slice of `t` equals `s`. -/
def strIn (s t : String) : Bool :=
  (List.range (t.data.length + 1)).any fun i =>
    decide ((t.data.drop i).take s.data.length = s.data)

/-- A normalized keyword: one output element of `_normalize_keywords`. -/
structure NK where
  original : String
  normalized : String
  cleaned : String
  importance : ℚ
  type : String
  frequency : ℕ
deriving DecidableEq, Repr

/-- One emitted match (a Python dict).  `normalized_resume` and
`normalized_job` both hold the single common string for an exact match
(the Python key `normalized`); `simVal` holds the fuzzy similarity (the
Python key holding the 0-100 fuzzy score), `none` for the other tiers. -/
structure Match where
  resume_keyword : String
  job_keyword : String
  normalized_resume : String
  normalized_job : String
  match_type : String
  confidence : ℚ
  simVal : Option ℕ
  weight : ℚ
  resume_importance : ℚ
  job_importance : ℚ
deriving DecidableEq, Repr

/-- A job keyword reported as missing (`_find_missing_keywords`). -/
structure Missing where
  keyword : String
  normalized : String
  importance : ℚ
  type : String
deriving DecidableEq, Repr

/-- The dict returned by `_calculate_scores`. -/
structure ScoreSet where
  exact_score : ℚ
  fuzzy_score : ℚ
  part_score : ℚ
  total_weighted_score : ℚ
  match_percentage : ℚ
  coverage_percentage : ℚ
  resume_utilization : ℚ
  overall_score : ℚ
  total_matches : ℕ
  exact_matches_count : ℕ
  fuzzy_matches_count : ℕ
  part_matches_count : ℕ
deriving DecidableEq, Repr

/-- The result bundle of `match_keywords` (claim-relevant fields;
`part_matches` models the Python key for the third tier). -/
structure MatchResult where
  exact_matches : List Match
  fuzzy_matches : List Match
  part_matches : List Match
  missing_keywords : List Missing
  scores : ScoreSet
  total_resume_keywords : ℕ
  total_job_keywords : ℕ
  match_percentage : ℚ
deriving DecidableEq, Repr

/-- `EXACT_MATCH_WEIGHT` from `src/utils/constants.py`. -/
def EXACT_MATCH_WEIGHT : ℚ := 1.0

/-- `FUZZY_MATCH_WEIGHT` from `src/utils/constants.py`. -/
def FUZZY_MATCH_WEIGHT : ℚ := 0.8

/-- `PARTIAL_MATCH_WEIGHT` (name shortened) from `src/utils/constants.py`. -/
def PART_MATCH_WEIGHT : ℚ := 0.6

/-- `KeywordMatcher._clean_keyword`: replace non-word non-space characters
by spaces (`\w` taken as ASCII alphanumeric or underscore), collapse
whitespace runs, strip, lowercase. -/
def cleanKeyword (k : String) : String :=
  let replaced := k.data.map fun c =>
    if c.isAlphanum || c = '_' || c.isWhitespace then c else ' '
  String.mk (pyLower (List.intercalate [' '] (wordsAux replaced [])))

/-- `KeywordMatcher._normalize_keywords`: skip records whose `text` reads
as the empty string (Python `if not text: continue`), otherwise build the
normalized record with `normalized = text.lower().strip()` and the
defaulted auxiliary fields. -/
def normalizeKeywords : List KeywordRecord → List NK
  | [] => []
  | k :: ks =>
    if k.text = "" then normalizeKeywords ks
    else
      { original := k.text
        normalized := String.mk (pyStrip (pyLower k.text.data))
        cleaned := cleanKeyword k.text
        importance := k.importance.getD 0.5
        type := k.type.getD "unknown"
        frequency := k.frequency.getD 1 } :: normalizeKeywords ks

/-- The distinct normalized strings common to both lists, in
first-occurrence-in-`R` order (the Python set intersection
`resume_set & job_set`; set iteration order is fixed as noted above). -/
def exactStrings (R J : List NK) : List String :=
  ((R.map NK.normalized).dedup).filter fun s => decide (s ∈ J.map NK.normalized)

/-- Build the exact-match record for common normalized string `s`
(Python dict literal in `_find_exact_matches`). -/
def mkExact (r j : NK) (s : String) : Match :=
  { resume_keyword := r.original, job_keyword := j.original
    normalized_resume := s, normalized_job := s
    match_type := "exact", confidence := 1.0, simVal := none
    weight := EXACT_MATCH_WEIGHT
    resume_importance := r.importance, job_importance := j.importance }

/-- `KeywordMatcher._find_exact_matches`: one match per common normalized
string, pairing the first resume and first job element carrying it
(Python `next(kw for kw in ... if kw['normalized'] == keyword)`). -/
def findExactMatches (R J : List NK) : List Match :=
  (exactStrings R J).filterMap fun s =>
    match R.find? (fun k => k.normalized == s), J.find? (fun k => k.normalized == s) with
    | some r, some j => some (mkExact r j s)
    | _, _ => none

/-- The `best_ratio` value carried by the accumulator of the inner scan
of `_find_fuzzy_matches`: Python initialises `best_ratio = 0` alongside
`best_match = None` and updates both together. -/
def accVal : Option (NK × ℕ) → ℕ
  | none => 0
  | some p => p.2

/-- The inner best-candidate scan of `_find_fuzzy_matches`: walk the job
candidates keeping `(best_match, best_ratio)` (`none` models Python
`best_match = None, best_ratio = 0`); a candidate replaces the best when
its similarity strictly exceeds the best so far and meets the threshold
(`if ratio > best_ratio and ratio >= self.fuzzy_threshold`). -/
def bestFuzzy (sim : String → String → ℕ) (t : ℕ) (r : String)
    (procJ : List String) : List NK → Option (NK × ℕ) → Option (NK × ℕ)
  | [], acc => acc
  | j :: js, acc =>
    if j.normalized ∈ procJ then bestFuzzy sim t r procJ js acc
    else
      if sim r j.normalized > accVal acc ∧ sim r j.normalized ≥ t then
        bestFuzzy sim t r procJ js (some (j, sim r j.normalized))
      else bestFuzzy sim t r procJ js acc

/-- Build the fuzzy-match record (Python dict literal in
`_find_fuzzy_matches`): confidence is the similarity divided by 100. -/
def mkFuzzy (r j : NK) (rt : ℕ) : Match :=
  { resume_keyword := r.original, job_keyword := j.original
    normalized_resume := r.normalized, normalized_job := j.normalized
    match_type := "fuzzy", confidence := (rt : ℚ) / 100, simVal := some rt
    weight := FUZZY_MATCH_WEIGHT
    resume_importance := r.importance, job_importance := j.importance }

/-- The outer loop of `_find_fuzzy_matches`: iterate resume candidates in
list order, skipping those whose normalized string was already consumed;
on a successful best-candidate scan emit the match and mark both
normalized strings consumed. -/
def fuzzyLoop (sim : String → String → ℕ) (t : ℕ) (jf : List NK) :
    List NK → List String → List String → List Match
  | [], _, _ => []
  | r :: rs, procR, procJ =>
    if r.normalized ∈ procR then fuzzyLoop sim t jf rs procR procJ
    else
      match bestFuzzy sim t r.normalized procJ jf none with
      | some (j, rt) =>
          mkFuzzy r j rt :: fuzzyLoop sim t jf rs (r.normalized :: procR) (j.normalized :: procJ)
      | none => fuzzyLoop sim t jf rs procR procJ

/-- `KeywordMatcher._find_fuzzy_matches`: drop every keyword (on both
sides) whose normalized string was exactly matched, then run the greedy
pairing loop. -/
def findFuzzyMatches (sim : String → String → ℕ) (t : ℕ) (R J : List NK) : List Match :=
  let exactN := (findExactMatches R J).map Match.normalized_job
  let rf := R.filter fun kw => decide (kw.normalized ∉ exactN)
  let jf := J.filter fun kw => decide (kw.normalized ∉ exactN)
  fuzzyLoop sim t jf rf [] []

/-- `KeywordMatcher._is_partial_match`: substring containment either way,
or the whitespace-word sets overlap by at least half the smaller set.
Python compares `len(words1 & words2) >= min(len(words1), len(words2)) * 0.5`
in floating point; both sides are exactly representable (`0.5` is dyadic and
the operands are small integers), so the comparison is rendered by the
exactly equivalent integer comparison `2 * overlap ≥ min`; the claim
theorem for the predicate proves the equivalence with the rational form. -/
def isPartMatch (k1 k2 : String) : Bool :=
  if strIn k1 k2 || strIn k2 k1 then true
  else
    let w1 := (pyWords k1).dedup
    let w2 := (pyWords k2).dedup
    decide (2 * (w1.filter fun w => decide (w ∈ w2)).length ≥ min w1.length w2.length)

/-- Build the partial-match record (Python dict literal in
`_find_partial_matches`): fixed confidence 0.6. -/
def mkPart (r j : NK) : Match :=
  { resume_keyword := r.original, job_keyword := j.original
    normalized_resume := r.normalized, normalized_job := j.normalized
    match_type := "partial", confidence := 0.6, simVal := none
    weight := PART_MATCH_WEIGHT
    resume_importance := r.importance, job_importance := j.importance }

/-- The inner scan of `_find_partial_matches`: first not-yet-consumed job
candidate related to `r` by `_is_partial_match` (the Python `for` with
`break`). -/
def partFind (r : String) (procJ : List String) (jobs : List NK) : Option NK :=
  jobs.find? fun j => decide (j.normalized ∉ procJ) && isPartMatch r j.normalized

/-- The outer loop of `_find_partial_matches`: iterate resume candidates
in order, skip consumed ones, emit on the first related job candidate and
mark both normalized strings consumed. -/
def partLoop : List NK → List NK → List String → List String → List Match
  | [], _, _, _ => []
  | r :: rs, jobs, procR, procJ =>
    if r.normalized ∈ procR then partLoop rs jobs procR procJ
    else
      match partFind r.normalized procJ jobs with
      | some j => mkPart r j :: partLoop rs jobs (r.normalized :: procR) (j.normalized :: procJ)
      | none => partLoop rs jobs procR procJ

/-- The resume candidate list of `_find_partial_matches`: resume keywords
whose normalized string was consumed neither by the exact stage nor by
the resume side of the fuzzy stage (Python
`all_matched_resume = exact_normalized.union(fuzzy_normalized)`). -/
def partResumeCands (sim : String → String → ℕ) (t : ℕ) (R J : List NK) : List NK :=
  let exactN := (findExactMatches R J).map Match.normalized_job
  let fuzzyN := (findFuzzyMatches sim t R J).map Match.normalized_resume
  R.filter fun kw => decide (¬(kw.normalized ∈ exactN ∨ kw.normalized ∈ fuzzyN))

/-- The job candidate list of `_find_partial_matches`: job keywords whose
normalized string was not consumed by the exact stage (fuzzy job-side
consumption is not excluded in the source). -/
def partJobCands (R J : List NK) : List NK :=
  let exactN := (findExactMatches R J).map Match.normalized_job
  J.filter fun kw => decide (kw.normalized ∉ exactN)

/-- `KeywordMatcher._find_partial_matches` (name shortened from the
Python `partial` wording): recompute the earlier stages for exclusion,
then run the pairing loop. -/
def findPartMatches (sim : String → String → ℕ) (t : ℕ) (R J : List NK) : List Match :=
  partLoop (partResumeCands sim t R J) (partJobCands R J) [] []

/-- `KeywordMatcher._find_missing_keywords`: job keywords whose
normalized string appears in no emitted match's job-side field (the
Python key `normalized` for exact matches and `normalized_job` for the
other tiers, both of which are `Match.normalized_job` here). -/
def findMissingKeywords (J : List NK) (ex fz pt : List Match) : List Missing :=
  let matched := ex.map Match.normalized_job ++ fz.map Match.normalized_job
    ++ pt.map Match.normalized_job
  J.filterMap fun j =>
    if j.normalized ∈ matched then none
    else some { keyword := j.original, normalized := j.normalized
                importance := j.importance, type := j.type }

/-- `KeywordMatcher._calculate_scores`. -/
def calculateScores (ex fz pt : List Match) (totalR totalJ : ℕ) : ScoreSet :=
  let exact_score := (ex.map fun m => m.weight * m.confidence).sum
  let fuzzy_score := (fz.map fun m => m.weight * m.confidence).sum
  let part_score := (pt.map fun m => m.weight * m.confidence).sum
  let total_weighted_score := exact_score + fuzzy_score + part_score
  let total_matches := ex.length + fz.length + pt.length
  let match_percentage : ℚ :=
    if totalJ > 0 then ((total_matches : ℚ) / (totalJ : ℚ)) * 100 else 0.0
  let coverage_percentage : ℚ :=
    if totalJ > 0 then ((total_matches : ℚ) / (totalJ : ℚ)) * 100 else 0.0
  let resume_utilization : ℚ :=
    if totalR > 0 then ((total_matches : ℚ) / (totalR : ℚ)) * 100 else 0.0
  let max_possible_score : ℚ := (totalJ : ℚ) * EXACT_MATCH_WEIGHT
  let overall_score : ℚ :=
    if max_possible_score > 0 then (total_weighted_score / max_possible_score) * 100 else 0.0
  { exact_score := exact_score, fuzzy_score := fuzzy_score
    part_score := part_score, total_weighted_score := total_weighted_score
    match_percentage := match_percentage, coverage_percentage := coverage_percentage
    resume_utilization := resume_utilization, overall_score := overall_score
    total_matches := total_matches
    exact_matches_count := ex.length, fuzzy_matches_count := fz.length
    part_matches_count := pt.length }

/-- `KeywordMatcher.match_keywords`: the full pipeline.  The top-level
`match_percentage` field is assigned `scores['overall_score']` as in the
source. -/
def matchKeywords (sim : String → String → ℕ) (t : ℕ)
    (resumeRaw jobRaw : List KeywordRecord) : MatchResult :=
  let R := normalizeKeywords resumeRaw
  let J := normalizeKeywords jobRaw
  let ex := findExactMatches R J
  let fz := findFuzzyMatches sim t R J
  let pt := findPartMatches sim t R J
  let miss := findMissingKeywords J ex fz pt
  let scores := calculateScores ex fz pt R.length J.length
  { exact_matches := ex, fuzzy_matches := fz, part_matches := pt
    missing_keywords := miss, scores := scores
    total_resume_keywords := R.length, total_job_keywords := J.length
    match_percentage := scores.overall_score }

/-- Longest-common-subsequence length with explicit fuel; the fuel
`a.length + b.length` used below always suffices since every recursive
call shortens the combined length by at least one. -/
def lcsAux : ℕ → List Char → List Char → ℕ
  | 0, _, _ => 0
  | _, [], _ => 0
  | _, _, [] => 0
  | fuel + 1, a :: as, b :: bs =>
    if a = b then lcsAux fuel as bs + 1
    else max (lcsAux fuel (a :: as) bs) (lcsAux fuel as (b :: bs))

/-- Longest-common-subsequence length of two character lists. -/
def lcsLen (s t : List Char) : ℕ := lcsAux (s.length + t.length) s t

/-- Modelled from the spec: the external fuzzywuzzy `fuzz.ratio`, which
is not part of this repository.  Spec §4.3 describes it as an
edit-distance-based similarity on the 0-100 integer scale with 100 for
identical strings; the python-Levenshtein form is
`round(200 * lcs / (len1 + len2))`, rendered here with round-half-up
(`(400 * lcs + S) / (2 * S)` in integer division); concrete inputs used
below avoid exact halves, where round-half-even could differ. -/
def fuzzSim (s t : String) : ℕ :=
  let L := lcsLen s.data t.data
  let S := s.data.length + t.data.length
  if S = 0 then 100 else (400 * L + S) / (2 * S)

/-- A raw record carrying only a `text` key (the other dict keys absent). -/
def rec1 (s : String) : KeywordRecord := ⟨s, none, none, none⟩

/-- Concrete resume-side input for concrete runs below. -/
def cR : List KeywordRecord := [rec1 "pythn", rec1 "python dev"]

/-- Concrete job-side input for concrete runs below. -/
def cJ : List KeywordRecord := [rec1 "python"]

/-- The normalized form of the raw record `rec1 "pythn"`. -/
def nkPythn : NK := ⟨"pythn", "pythn", "pythn", 0.5, "unknown", 1⟩

/-- The normalized form of the raw record `rec1 "python dev"`. -/
def nkPyDev : NK := ⟨"python dev", "python dev", "python dev", 0.5, "unknown", 1⟩

/-- The normalized form of the raw record `rec1 "python"`. -/
def nkPython : NK := ⟨"python", "python", "python", 0.5, "unknown", 1⟩

/-- The normalized form of the raw record `rec1 "a"`. -/
def nkA : NK := ⟨"a", "a", "a", 0.5, "unknown", 1⟩

/-- The normalized form of the raw record `rec1 "zz"`. -/
def nkZz : NK := ⟨"zz", "zz", "zz", 0.5, "unknown", 1⟩

/-- The normalized form of the raw record `rec1 "ab"`. -/
def nkAb : NK := ⟨"ab", "ab", "ab", 0.5, "unknown", 1⟩

/-- The normalized form of the raw record `rec1 "cd"`. -/
def nkCd : NK := ⟨"cd", "cd", "cd", 0.5, "unknown", 1⟩

/-! ### Lemmas about the exact stage -/

theorem mem_exactStrings {R J : List NK} {s : String} :
    s ∈ exactStrings R J ↔ s ∈ R.map NK.normalized ∧ s ∈ J.map NK.normalized := by
  simp [exactStrings, List.mem_filter]

theorem exactStrings_nodup (R J : List NK) : (exactStrings R J).Nodup :=
  (List.nodup_dedup _).filter _

theorem find?_norm_isSome {L : List NK} {s : String} (h : s ∈ L.map NK.normalized) :
    ∃ k, L.find? (fun k => k.normalized == s) = some k := by
  rw [← Option.isSome_iff_exists, List.find?_isSome]
  obtain ⟨k, hk, hks⟩ := List.mem_map.mp h
  exact ⟨k, hk, by simp [hks]⟩

theorem exactF_eq {R J : List NK} {s : String} {r j : NK}
    (hrf : R.find? (fun k => k.normalized == s) = some r)
    (hjf : J.find? (fun k => k.normalized == s) = some j) :
    (match R.find? (fun k => k.normalized == s), J.find? (fun k => k.normalized == s) with
      | some r, some j => some (mkExact r j s)
      | _, _ => none) = some (mkExact r j s) := by
  rw [hrf, hjf]

theorem map_job_filterMapExact (R J : List NK) :
    ∀ ss : List String,
      (∀ s ∈ ss, s ∈ R.map NK.normalized ∧ s ∈ J.map NK.normalized) →
      ((ss.filterMap fun s =>
        match R.find? (fun k => k.normalized == s), J.find? (fun k => k.normalized == s) with
        | some r, some j => some (mkExact r j s)
        | _, _ => none).map Match.normalized_job) = ss
  | [], _ => by simp
  | s :: ss, h => by
    obtain ⟨hr, hj⟩ := h s (List.mem_cons_self s ss)
    obtain ⟨r, hrf⟩ := find?_norm_isSome hr
    obtain ⟨j, hjf⟩ := find?_norm_isSome hj
    rw [List.filterMap_cons, exactF_eq hrf hjf, List.map_cons,
      map_job_filterMapExact R J ss fun u hu => h u (List.mem_cons_of_mem _ hu)]
    rfl

theorem findExactMatches_map_job (R J : List NK) :
    (findExactMatches R J).map Match.normalized_job = exactStrings R J :=
  map_job_filterMapExact R J (exactStrings R J) fun _ hs => mem_exactStrings.mp hs

theorem mem_findExactMatches_spec {R J : List NK} {m : Match}
    (h : m ∈ findExactMatches R J) :
    ∃ r j, R.find? (fun k => k.normalized == m.normalized_job) = some r ∧
      J.find? (fun k => k.normalized == m.normalized_job) = some j ∧
      m = mkExact r j m.normalized_job := by
  unfold findExactMatches at h
  obtain ⟨s, hs, hf⟩ := List.mem_filterMap.mp h
  obtain ⟨hr, hj⟩ := mem_exactStrings.mp hs
  obtain ⟨r, hrf⟩ := find?_norm_isSome hr
  obtain ⟨j, hjf⟩ := find?_norm_isSome hj
  rw [exactF_eq hrf hjf] at hf
  obtain rfl := Option.some.inj hf
  exact ⟨r, j, hrf, hjf, rfl⟩

theorem countP_eq_ite_of_nodup {l : List String} (h : l.Nodup) (s : String) :
    l.countP (fun x => decide (x = s)) = if s ∈ l then 1 else 0 := by
  induction l with
  | nil => simp
  | cons a l ih =>
    rw [List.nodup_cons] at h
    rcases eq_or_ne a s with h1 | h1
    · subst h1
      simp [List.countP_cons, ih h.2, h.1]
    · simp [List.countP_cons, ih h.2, h1, List.mem_cons, Ne.symm h1]

/-- C5: for every pair of normalized keyword lists `R` and `J`, the exact
matcher emits exactly one match per distinct normalized string in the
intersection of the normalized strings of `R` and `J`, regardless of how
many duplicate entries share that string; each such match pairs the first
element of `R` and the first element of `J` carrying that normalized
string and has confidence 1.0 and weight 1.0. -/
theorem c5_exact_one_match_per_string (R J : List NK) :
    (∀ s : String,
      ((findExactMatches R J).filter fun m => decide (m.normalized_job = s)).length
        = if s ∈ R.map NK.normalized ∧ s ∈ J.map NK.normalized then 1 else 0) ∧
    (∀ m ∈ findExactMatches R J,
      m.match_type = "exact" ∧ m.confidence = 1.0 ∧ m.weight = 1.0 ∧
      m.normalized_resume = m.normalized_job ∧
      (∃ r l₁ l₂, R = l₁ ++ r :: l₂ ∧ r.normalized = m.normalized_job ∧
        (∀ k ∈ l₁, k.normalized ≠ m.normalized_job) ∧
        m.resume_keyword = r.original ∧ m.resume_importance = r.importance) ∧
      (∃ j l₁ l₂, J = l₁ ++ j :: l₂ ∧ j.normalized = m.normalized_job ∧
        (∀ k ∈ l₁, k.normalized ≠ m.normalized_job) ∧
        m.job_keyword = j.original ∧ m.job_importance = j.importance)) := by
  constructor
  · intro s
    rw [← List.countP_eq_length_filter]
    have hmap : (findExactMatches R J).countP (fun m => decide (m.normalized_job = s))
        = ((findExactMatches R J).map Match.normalized_job).countP
            (fun x => decide (x = s)) := by
      rw [List.countP_map]; rfl
    rw [hmap, findExactMatches_map_job, countP_eq_ite_of_nodup (exactStrings_nodup R J)]
    by_cases hmem : s ∈ exactStrings R J
    · rw [if_pos hmem, if_pos (mem_exactStrings.mp hmem)]
    · rw [if_neg hmem, if_neg fun hc => hmem (mem_exactStrings.mpr hc)]
  · intro m hm
    obtain ⟨r, j, hrf, hjf, hmk⟩ := mem_findExactMatches_spec hm
    obtain ⟨hpr, l₁, l₂, hR, hfirstR⟩ := List.find?_eq_some.mp hrf
    obtain ⟨hpj, k₁, k₂, hJ, hfirstJ⟩ := List.find?_eq_some.mp hjf
    refine ⟨by rw [hmk]; rfl, by rw [hmk]; rfl, by rw [hmk]; rfl, by rw [hmk]; rfl, ?_, ?_⟩
    · exact ⟨r, l₁, l₂, hR, by simpa using hpr,
        fun k hk => by simpa using hfirstR k hk,
        by rw [hmk]; rfl, by rw [hmk]; rfl⟩
    · exact ⟨j, k₁, k₂, hJ, by simpa using hpj,
        fun k hk => by simpa using hfirstJ k hk,
        by rw [hmk]; rfl, by rw [hmk]; rfl⟩

/-- C7 counterexample: the record whose text is the single space `" "` is
empty after trimming, so the claim says it is dropped; the code keeps it
(only pre-trim-empty text is dropped by `if not text`), producing a
normalized keyword whose normalized string is empty. -/
theorem c7_counterexample :
    String.mk (pyStrip (pyLower (" " : String).data)) = "" ∧
    normalizeKeywords [rec1 " "] ≠ [] ∧
    (normalizeKeywords [rec1 " "]).map NK.normalized = [""] := by
  refine ⟨rfl, ?_, by decide⟩
  decide

/-- C7 (amended): the normalizer drops exactly those records whose text
is empty before trimming (`if not text`); every surviving record — even
whitespace-only text, whose normalized string comes out empty — yields
one NormalizedKeyword with `normalized` the lowercased-then-trimmed text,
in input order, with defaults importance 0.5, type "unknown", frequency 1
for absent fields. -/
theorem c7_normalizer_amended (ks : List KeywordRecord) :
    normalizeKeywords ks = (ks.filter fun k => decide (k.text ≠ "")).map fun k =>
      { original := k.text
        normalized := String.mk (pyStrip (pyLower k.text.data))
        cleaned := cleanKeyword k.text
        importance := k.importance.getD 0.5
        type := k.type.getD "unknown"
        frequency := k.frequency.getD 1 } := by
  induction ks with
  | nil => rfl
  | cons k ks ih =>
    by_cases h : k.text = ""
    · simp [normalizeKeywords, h, ih]
    · simp [normalizeKeywords, h, ih]

/-- C3: the partial stage considers exactly the resume keywords whose
normalized string was consumed by neither the exact stage (membership in
the intersection of the two normalized-string sets) nor the resume side
of the fuzzy stage, and exactly the job keywords whose normalized string
was not consumed by the exact stage; job-side fuzzy consumption is not
excluded from the job candidates — the final conjunct exhibits a concrete
run in which the job keyword consumed by the fuzzy stage is still a job
candidate of the partial stage. -/
theorem c3_part_stage_candidates :
    (∀ (sim : String → String → ℕ) (t : ℕ) (R J : List NK) (kw : NK),
      (kw ∈ partResumeCands sim t R J ↔
        kw ∈ R ∧
        ¬(kw.normalized ∈ R.map NK.normalized ∧ kw.normalized ∈ J.map NK.normalized) ∧
        kw.normalized ∉ (findFuzzyMatches sim t R J).map Match.normalized_resume) ∧
      (kw ∈ partJobCands R J ↔
        kw ∈ J ∧
        ¬(kw.normalized ∈ R.map NK.normalized ∧ kw.normalized ∈ J.map NK.normalized))) ∧
    ("python" ∈ (findFuzzyMatches fuzzSim 70
        (normalizeKeywords cR) (normalizeKeywords cJ)).map Match.normalized_job ∧
      nkPython ∈ partJobCands (normalizeKeywords cR) (normalizeKeywords cJ)) := by
  constructor
  · intro sim t R J kw
    constructor
    · rw [partResumeCands, List.mem_filter]
      simp only [decide_eq_true_eq, findExactMatches_map_job]
      rw [mem_exactStrings]
      tauto
    · rw [partJobCands, List.mem_filter]
      simp only [decide_eq_true_eq, findExactMatches_map_job]
      rw [mem_exactStrings]
  · constructor
    · decide
    · have h : partJobCands (normalizeKeywords cR) (normalizeKeywords cJ) = [nkPython] := rfl
      rw [h]
      exact List.mem_singleton_self _

/-! ### Lemmas about the partial stage -/

theorem strIn_iff {s t : String} :
    strIn s t = true ↔ ∃ l₁ l₂, t.data = l₁ ++ s.data ++ l₂ := by
  unfold strIn
  rw [List.any_eq_true]
  constructor
  · rintro ⟨i, _, hdec⟩
    rw [decide_eq_true_eq] at hdec
    refine ⟨t.data.take i, t.data.drop (i + s.data.length), ?_⟩
    conv_lhs => rw [← List.take_append_drop i t.data,
      ← List.take_append_drop s.data.length (t.data.drop i)]
    rw [hdec, List.drop_drop, List.append_assoc]
  · rintro ⟨l₁, l₂, ht⟩
    refine ⟨l₁.length, ?_, ?_⟩
    · rw [List.mem_range, ht]
      simp only [List.length_append]
      omega
    · rw [decide_eq_true_eq, ht, List.append_assoc, List.drop_left, List.take_left]

theorem half_min_iff (a m : ℕ) : (m : ℚ) * 0.5 ≤ (a : ℚ) ↔ m ≤ 2 * a := by
  rw [show (0.5 : ℚ) = 1 / 2 by norm_num, mul_one_div,
    div_le_iff₀ (by norm_num : (0 : ℚ) < 2)]
  have h2 : ((a : ℚ) * 2) = ((2 * a : ℕ) : ℚ) := by push_cast; ring
  rw [h2, Nat.cast_le]

theorem mem_partLoop_spec :
    ∀ (rs jobs : List NK) (procR procJ : List String) (m : Match),
      m ∈ partLoop rs jobs procR procJ →
      ∃ r j, m = mkPart r j ∧ r ∈ rs ∧ j ∈ jobs ∧
        isPartMatch r.normalized j.normalized = true
  | [], _, _, _, m => by simp [partLoop]
  | r :: rs, jobs, procR, procJ, m => by
    intro hm
    rw [partLoop] at hm
    by_cases hr : r.normalized ∈ procR
    · rw [if_pos hr] at hm
      obtain ⟨r', j', h1, h2, h3, h4⟩ := mem_partLoop_spec rs jobs procR procJ m hm
      exact ⟨r', j', h1, List.mem_cons_of_mem _ h2, h3, h4⟩
    · rw [if_neg hr] at hm
      cases hf : partFind r.normalized procJ jobs with
      | none =>
        rw [hf] at hm
        obtain ⟨r', j', h1, h2, h3, h4⟩ := mem_partLoop_spec rs jobs procR procJ m hm
        exact ⟨r', j', h1, List.mem_cons_of_mem _ h2, h3, h4⟩
      | some j =>
        rw [hf] at hm
        rcases List.mem_cons.mp hm with rfl | hm'
        · refine ⟨r, j, rfl, List.mem_cons_self r rs, List.mem_of_find?_eq_some hf, ?_⟩
          have hp := List.find?_some hf
          rw [Bool.and_eq_true] at hp
          exact hp.2
        · obtain ⟨r', j', h1, h2, h3, h4⟩ :=
            mem_partLoop_spec rs jobs (r.normalized :: procR) (j.normalized :: procJ) m hm'
          exact ⟨r', j', h1, List.mem_cons_of_mem _ h2, h3, h4⟩

/-- C6: the partial-match predicate holds exactly when one normalized
string is a substring of the other, or the whitespace-split word sets
overlap by at least half the smaller set (Python compares against
`min * 0.5` in exact dyadic floating point); every match the partial loop
emits has fixed confidence 0.6 and weight 0.6 and relates its two
normalized strings by the predicate, and the inner scan pairs a resume
candidate with the first not-yet-consumed job candidate satisfying the
predicate. -/
theorem c6_part_predicate_and_loop :
    (∀ k1 k2 : String,
      isPartMatch k1 k2 = true ↔
        (∃ l₁ l₂, k2.data = l₁ ++ k1.data ++ l₂) ∨
        (∃ l₁ l₂, k1.data = l₁ ++ k2.data ++ l₂) ∨
        (((min (pyWords k1).dedup.length (pyWords k2).dedup.length : ℕ) : ℚ) * 0.5 ≤
          (((pyWords k1).dedup.filter fun w =>
            decide (w ∈ (pyWords k2).dedup)).length : ℚ))) ∧
    (∀ (rs jobs : List NK) (procR procJ : List String) (m : Match),
      m ∈ partLoop rs jobs procR procJ →
        m.match_type = "partial" ∧ m.confidence = 0.6 ∧ m.weight = 0.6 ∧
        isPartMatch m.normalized_resume m.normalized_job = true) ∧
    (∀ (r : String) (procJ : List String) (jobs : List NK) (j : NK),
      partFind r procJ jobs = some j →
        j.normalized ∉ procJ ∧ isPartMatch r j.normalized = true ∧
        ∃ l₁ l₂, jobs = l₁ ++ j :: l₂ ∧
          ∀ j' ∈ l₁, j'.normalized ∈ procJ ∨ isPartMatch r j'.normalized = false) := by
  refine ⟨?_, ?_, ?_⟩
  · intro k1 k2
    unfold isPartMatch
    by_cases hsub : (strIn k1 k2 || strIn k2 k1) = true
    · rw [if_pos hsub]
      rw [Bool.or_eq_true] at hsub
      simp only [true_iff]
      rcases hsub with h | h
      · exact Or.inl (strIn_iff.mp h)
      · exact Or.inr (Or.inl (strIn_iff.mp h))
    · rw [if_neg hsub]
      rw [Bool.or_eq_true, not_or] at hsub
      have h1 : ¬∃ l₁ l₂, k2.data = l₁ ++ k1.data ++ l₂ := fun hc =>
        hsub.1 (strIn_iff.mpr hc)
      have h2 : ¬∃ l₁ l₂, k1.data = l₁ ++ k2.data ++ l₂ := fun hc =>
        hsub.2 (strIn_iff.mpr hc)
      rw [decide_eq_true_eq, half_min_iff, ge_iff_le]
      constructor
      · intro h
        exact Or.inr (Or.inr h)
      · rintro (hc | hc | hc)
        · exact absurd hc h1
        · exact absurd hc h2
        · exact hc
  · intro rs jobs procR procJ m hm
    obtain ⟨r, j, rfl, _, _, h4⟩ := mem_partLoop_spec rs jobs procR procJ m hm
    exact ⟨rfl, rfl, rfl, h4⟩
  · intro r procJ jobs j hf
    have hp := List.find?_some hf
    rw [Bool.and_eq_true, decide_eq_true_eq] at hp
    obtain ⟨hpj, l₁, l₂, hjobs, hfirst⟩ := List.find?_eq_some.mp hf
    refine ⟨hp.1, hp.2, l₁, l₂, hjobs, fun j' hj' => ?_⟩
    have hj'f : (decide (j'.normalized ∉ procJ) && isPartMatch r j'.normalized) = false := by
      have h := hfirst j' hj'
      rwa [Bool.not_eq_true'] at h
    rcases Bool.and_eq_false_iff.mp hj'f with h | h
    · left
      rw [decide_eq_false_iff_not] at h
      exact not_not.mp h
    · right
      exact h

/-- Witness for C6 at a concrete input: the one emitted partial match has
confidence 0.6, and the inner scan's result is unconsumed and related to
the resume candidate by the predicate. -/
theorem c6_witness :
    (mkPart nkPyDev nkPython).confidence = 0.6 ∧
    nkPython.normalized ∉ ([] : List String) ∧
    isPartMatch nkPyDev.normalized nkPython.normalized = true := by
  have hloop : partLoop [nkPyDev] [nkPython] [] [] = [mkPart nkPyDev nkPython] := rfl
  have hfind : partFind nkPyDev.normalized [] [nkPython] = some nkPython := rfl
  refine ⟨?_, ?_, ?_⟩
  · exact ((c6_part_predicate_and_loop.2.1 [nkPyDev] [nkPython] [] []
      (mkPart nkPyDev nkPython)) (by rw [hloop]; exact List.mem_singleton_self _)).2.1
  · exact (c6_part_predicate_and_loop.2.2 nkPyDev.normalized [] [nkPython] nkPython hfind).1
  · exact (c6_part_predicate_and_loop.2.2 nkPyDev.normalized [] [nkPython] nkPython hfind).2.1

/-! ### Lemmas about the fuzzy stage -/

theorem bestFuzzy_isSome_of_acc (sim : String → String → ℕ) (t : ℕ) (r : String)
    (procJ : List String) :
    ∀ (jf : List NK) (p : NK × ℕ), (bestFuzzy sim t r procJ jf (some p)).isSome
  | [], _ => by rw [bestFuzzy]; rfl
  | j :: js, p => by
    rw [bestFuzzy]
    by_cases h1 : j.normalized ∈ procJ
    · rw [if_pos h1]
      exact bestFuzzy_isSome_of_acc sim t r procJ js p
    · rw [if_neg h1]
      by_cases h2 : sim r j.normalized > accVal (some p) ∧ sim r j.normalized ≥ t
      · rw [if_pos h2]
        exact bestFuzzy_isSome_of_acc sim t r procJ js _
      · rw [if_neg h2]
        exact bestFuzzy_isSome_of_acc sim t r procJ js p

theorem bestFuzzy_isSome_iff (sim : String → String → ℕ) (t : ℕ) (r : String)
    (procJ : List String) :
    ∀ jf : List NK,
      (bestFuzzy sim t r procJ jf none).isSome ↔
        ∃ j ∈ jf, j.normalized ∉ procJ ∧ t ≤ sim r j.normalized ∧ 0 < sim r j.normalized
  | [] => by simp [bestFuzzy]
  | j :: js => by
    rw [bestFuzzy]
    by_cases h1 : j.normalized ∈ procJ
    · rw [if_pos h1, bestFuzzy_isSome_iff sim t r procJ js]
      constructor
      · rintro ⟨j', hj', hp⟩
        exact ⟨j', List.mem_cons_of_mem _ hj', hp⟩
      · rintro ⟨j', hj', hnp, hp⟩
        rcases List.mem_cons.mp hj' with rfl | hmem
        · exact absurd h1 hnp
        · exact ⟨j', hmem, hnp, hp⟩
    · rw [if_neg h1]
      by_cases h2 : sim r j.normalized > accVal none ∧ sim r j.normalized ≥ t
      · rw [if_pos h2]
        constructor
        · intro _
          exact ⟨j, List.mem_cons_self _ _, h1, h2.2, h2.1⟩
        · intro _
          exact bestFuzzy_isSome_of_acc sim t r procJ js _
      · rw [if_neg h2, bestFuzzy_isSome_iff sim t r procJ js]
        constructor
        · rintro ⟨j', hj', hp⟩
          exact ⟨j', List.mem_cons_of_mem _ hj', hp⟩
        · rintro ⟨j', hj', hnp, hge, hpos⟩
          rcases List.mem_cons.mp hj' with rfl | hmem
          · exact absurd ⟨hpos, hge⟩ h2
          · exact ⟨j', hmem, hnp, hge, hpos⟩

theorem bestFuzzy_spec (sim : String → String → ℕ) (t : ℕ) (r : String)
    (procJ : List String) :
    ∀ (jf : List NK) (acc : Option (NK × ℕ)) (j : NK) (rt : ℕ),
      bestFuzzy sim t r procJ jf acc = some (j, rt) →
      (acc = some (j, rt) ∧ ∀ j' ∈ jf, j'.normalized ∉ procJ →
          sim r j'.normalized ≤ rt ∨ sim r j'.normalized < t) ∨
      (j.normalized ∉ procJ ∧ rt = sim r j.normalized ∧ t ≤ rt ∧ accVal acc < rt ∧
        ∃ l₁ l₂, jf = l₁ ++ j :: l₂ ∧
          (∀ j' ∈ l₁, j'.normalized ∉ procJ →
            sim r j'.normalized < rt ∨ sim r j'.normalized < t) ∧
          (∀ j' ∈ l₂, j'.normalized ∉ procJ →
            sim r j'.normalized ≤ rt ∨ sim r j'.normalized < t))
  | [], acc, j, rt => by
    intro h
    rw [bestFuzzy] at h
    exact Or.inl ⟨h, by simp⟩
  | j₀ :: js, acc, j, rt => by
    intro h
    rw [bestFuzzy] at h
    by_cases h1 : j₀.normalized ∈ procJ
    · rw [if_pos h1] at h
      rcases bestFuzzy_spec sim t r procJ js acc j rt h with ⟨hacc, hall⟩ | hfound
      · refine Or.inl ⟨hacc, fun j' hj' hnp => ?_⟩
        rcases List.mem_cons.mp hj' with rfl | hmem
        · exact absurd h1 hnp
        · exact hall j' hmem hnp
      · obtain ⟨hnp, hrt, ht, haccv, l₁, l₂, hjs, hl₁, hl₂⟩ := hfound
        refine Or.inr ⟨hnp, hrt, ht, haccv, j₀ :: l₁, l₂, by rw [hjs]; rfl, ?_, hl₂⟩
        intro j' hj' hnp'
        rcases List.mem_cons.mp hj' with rfl | hmem
        · exact absurd h1 hnp'
        · exact hl₁ j' hmem hnp'
    · rw [if_neg h1] at h
      by_cases h2 : sim r j₀.normalized > accVal acc ∧ sim r j₀.normalized ≥ t
      · rw [if_pos h2] at h
        rcases bestFuzzy_spec sim t r procJ js (some (j₀, sim r j₀.normalized)) j rt h with
          ⟨hacc, hall⟩ | hfound
        · obtain ⟨rfl, rfl⟩ : j₀ = j ∧ sim r j₀.normalized = rt := by
            have := Option.some.inj hacc
            exact ⟨congrArg Prod.fst this, congrArg Prod.snd this⟩
          exact Or.inr ⟨h1, rfl, h2.2, h2.1, [], js, rfl, by simp, hall⟩
        · obtain ⟨hnp, hrt, ht, haccv, l₁, l₂, hjs, hl₁, hl₂⟩ := hfound
          have hj₀lt : sim r j₀.normalized < rt := haccv
          refine Or.inr ⟨hnp, hrt, ht, lt_trans h2.1 hj₀lt, j₀ :: l₁, l₂, by rw [hjs]; rfl, ?_, hl₂⟩
          intro j' hj' hnp'
          rcases List.mem_cons.mp hj' with rfl | hmem
          · exact Or.inl hj₀lt
          · exact hl₁ j' hmem hnp'
      · rw [if_neg h2] at h
        rcases bestFuzzy_spec sim t r procJ js acc j rt h with ⟨hacc, hall⟩ | hfound
        · refine Or.inl ⟨hacc, fun j' hj' hnp => ?_⟩
          rcases List.mem_cons.mp hj' with rfl | hmem
          · rcases Nat.lt_or_ge (sim r j'.normalized) t with hlt | hge
            · exact Or.inr hlt
            · refine Or.inl ?_
              have : ¬sim r j'.normalized > accVal acc := fun hc => h2 ⟨hc, hge⟩
              have hle : sim r j'.normalized ≤ accVal acc := Nat.le_of_not_lt this
              calc sim r j'.normalized ≤ accVal acc := hle
                _ = rt := by rw [hacc]; rfl
          · exact hall j' hmem hnp
        · obtain ⟨hnp, hrt, ht, haccv, l₁, l₂, hjs, hl₁, hl₂⟩ := hfound
          refine Or.inr ⟨hnp, hrt, ht, haccv, j₀ :: l₁, l₂, by rw [hjs]; rfl, ?_, hl₂⟩
          intro j' hj' hnp'
          rcases List.mem_cons.mp hj' with rfl | hmem
          · rcases Nat.lt_or_ge (sim r j'.normalized) t with hlt | hge
            · exact Or.inr hlt
            · refine Or.inl ?_
              have : ¬sim r j'.normalized > accVal acc := fun hc => h2 ⟨hc, hge⟩
              exact lt_of_le_of_lt (Nat.le_of_not_lt this) haccv
          · exact hl₁ j' hmem hnp'

/-- C4 (amended): for every resume candidate considered by the fuzzy
stage, a fuzzy match is emitted exactly when some not-yet-consumed job
candidate has similarity at least the threshold AND strictly positive
(Python updates the best candidate only under `ratio > best_ratio` with
`best_ratio` initialised to 0, so for threshold 0 a similarity-0
candidate never matches; for every threshold ≥ 1 this is exactly
"similarity at least the threshold", so a pair at exactly the threshold
matches and one point below does not); the emitted partner is the
maximum-similarity candidate, ties broken in favour of the first in list
order. -/
theorem c4_fuzzy_emission_amended (sim : String → String → ℕ) (t : ℕ) (r : String)
    (procJ : List String) (jf : List NK) :
    ((bestFuzzy sim t r procJ jf none).isSome ↔
      ∃ j ∈ jf, j.normalized ∉ procJ ∧ t ≤ sim r j.normalized ∧
        0 < sim r j.normalized) ∧
    (∀ j rt, bestFuzzy sim t r procJ jf none = some (j, rt) →
      j.normalized ∉ procJ ∧ rt = sim r j.normalized ∧ t ≤ rt ∧ 0 < rt ∧
      ∃ l₁ l₂, jf = l₁ ++ j :: l₂ ∧
        (∀ j' ∈ l₁, j'.normalized ∉ procJ →
          sim r j'.normalized < rt ∨ sim r j'.normalized < t) ∧
        (∀ j' ∈ l₂, j'.normalized ∉ procJ →
          sim r j'.normalized ≤ rt ∨ sim r j'.normalized < t)) := by
  refine ⟨bestFuzzy_isSome_iff sim t r procJ jf, fun j rt h => ?_⟩
  rcases bestFuzzy_spec sim t r procJ jf none j rt h with ⟨hacc, _⟩ | hfound
  · exact absurd hacc (by simp)
  · obtain ⟨hnp, hrt, ht, haccv, hrest⟩ := hfound
    exact ⟨hnp, hrt, ht, haccv, hrest⟩

/-- C4 counterexample: with fuzzy threshold 0 (inside the documented
range 0-100) and the run resume `"a"` against job `"zz"`, the similarity
is 0, so a not-yet-consumed job candidate with similarity at least the
threshold exists, yet the scan emits nothing and the run has no fuzzy
match — refuting "emitted exactly when some candidate meets the
threshold" as stated. -/
theorem c4_counterexample :
    fuzzSim "a" "zz" = 0 ∧
    (∃ j ∈ [nkZz], j.normalized ∉ ([] : List String) ∧ 0 ≤ fuzzSim "a" j.normalized) ∧
    bestFuzzy fuzzSim 0 "a" [] [nkZz] none = none ∧
    (matchKeywords fuzzSim 0 [rec1 "a"] [rec1 "zz"]).fuzzy_matches = [] := by
  exact ⟨by decide, ⟨nkZz, List.mem_singleton_self _, by decide, by decide⟩, rfl, rfl⟩

/-- Witness for C4 at a concrete input: the scan of job candidate
`"python"` for resume candidate `"pythn"` at threshold 70 returns the
pair at similarity 91, which is unconsumed, computed by the similarity
function, and at or above the threshold. -/
theorem c4_witness :
    nkPython.normalized ∉ ([] : List String) ∧
    (91 : ℕ) = fuzzSim "pythn" "python" ∧ 70 ≤ (91 : ℕ) := by
  have h := (c4_fuzzy_emission_amended fuzzSim 70 "pythn" [] [nkPython]).2 nkPython 91 rfl
  exact ⟨h.1, h.2.1, h.2.2.1⟩

theorem mem_fuzzyLoop_spec (sim : String → String → ℕ) (t : ℕ) (jf : List NK) :
    ∀ (rs : List NK) (procR procJ : List String) (m : Match),
      m ∈ fuzzyLoop sim t jf rs procR procJ →
      ∃ r j, r ∈ rs ∧ j ∈ jf ∧ m = mkFuzzy r j (sim r.normalized j.normalized) ∧
        j.normalized ∉ procJ ∧ t ≤ sim r.normalized j.normalized ∧
        0 < sim r.normalized j.normalized
  | [], _, _, m => by simp [fuzzyLoop]
  | r :: rs, procR, procJ, m => by
    intro hm
    rw [fuzzyLoop] at hm
    by_cases h1 : r.normalized ∈ procR
    · rw [if_pos h1] at hm
      obtain ⟨r', j', h2, h3, h4⟩ := mem_fuzzyLoop_spec sim t jf rs procR procJ m hm
      exact ⟨r', j', List.mem_cons_of_mem _ h2, h3, h4⟩
    · rw [if_neg h1] at hm
      cases hf : bestFuzzy sim t r.normalized procJ jf none with
      | none =>
        rw [hf] at hm
        obtain ⟨r', j', h2, h3, h4⟩ := mem_fuzzyLoop_spec sim t jf rs procR procJ m hm
        exact ⟨r', j', List.mem_cons_of_mem _ h2, h3, h4⟩
      | some p =>
        obtain ⟨j, rt⟩ := p
        rw [hf] at hm
        obtain ⟨hnp, hrt, ht, hpos, l₁, l₂, hjf, -, -⟩ :=
          (c4_fuzzy_emission_amended sim t r.normalized procJ jf).2 j rt hf
        rcases List.mem_cons.mp hm with rfl | hm'
        · subst hrt
          exact ⟨r, j, List.mem_cons_self r rs,
            by rw [hjf]; exact List.mem_append_right _ (List.mem_cons_self j l₂),
            rfl, hnp, ht, hpos⟩
        · obtain ⟨r', j', h2, h3, h4⟩ :=
            mem_fuzzyLoop_spec sim t jf rs (r.normalized :: procR) (j.normalized :: procJ) m hm'
          refine ⟨r', j', List.mem_cons_of_mem _ h2, h3, h4.1, ?_, h4.2.2⟩
          exact fun hc => h4.2.1 (List.mem_cons_of_mem _ hc)

theorem mem_findFuzzyMatches_spec {sim : String → String → ℕ} {t : ℕ}
    {R J : List NK} {m : Match} (hm : m ∈ findFuzzyMatches sim t R J) :
    ∃ r j, r ∈ R ∧ j ∈ J ∧ m = mkFuzzy r j (sim r.normalized j.normalized) ∧
      t ≤ sim r.normalized j.normalized ∧ 0 < sim r.normalized j.normalized ∧
      j.normalized ∉ (findExactMatches R J).map Match.normalized_job ∧
      r.normalized ∉ (findExactMatches R J).map Match.normalized_job := by
  unfold findFuzzyMatches at hm
  obtain ⟨r, j, hr, hj, hmk, _, hge, hpos⟩ :=
    mem_fuzzyLoop_spec sim t _ _ [] [] m hm
  rw [List.mem_filter, decide_eq_true_eq] at hr hj
  exact ⟨r, j, hr.1, hj.1, hmk, hge, hpos, hj.2, hr.2⟩

/-- C10: every fuzzy match emitted in a run with fuzzy threshold `t` has
confidence equal to the computed similarity divided by 100, lying in the
interval from `t / 100` to 1 (the upper bound uses that the similarity
function, like `fuzz.ratio`, never exceeds 100). -/
theorem c10_fuzzy_confidence (sim : String → String → ℕ) (t : ℕ)
    (resumeRaw jobRaw : List KeywordRecord)
    (hsim : ∀ a b, sim a b ≤ 100) :
    ∀ m ∈ (matchKeywords sim t resumeRaw jobRaw).fuzzy_matches,
      m.confidence = (sim m.normalized_resume m.normalized_job : ℚ) / 100 ∧
      (t : ℚ) / 100 ≤ m.confidence ∧ m.confidence ≤ 1 := by
  intro m hm
  have hm' : m ∈ findFuzzyMatches sim t
      (normalizeKeywords resumeRaw) (normalizeKeywords jobRaw) := hm
  obtain ⟨r, j, -, -, rfl, hge, -, -, -⟩ := mem_findFuzzyMatches_spec hm'
  refine ⟨rfl, ?_, ?_⟩
  · show (t : ℚ) / 100 ≤ (sim r.normalized j.normalized : ℚ) / 100
    exact (div_le_div_iff_of_pos_right (by norm_num : (0 : ℚ) < 100)).mpr (by exact_mod_cast hge)
  · show (sim r.normalized j.normalized : ℚ) / 100 ≤ 1
    rw [div_le_one (by norm_num : (0 : ℚ) < 100)]
    exact_mod_cast hsim r.normalized j.normalized

/-- Witness for C10 at a concrete input: with the constant similarity 80
and threshold 70, the single fuzzy match has confidence 80/100, inside
the stated interval. -/
theorem c10_witness :
    (matchKeywords (fun _ _ => 80) 70 [rec1 "ab"] [rec1 "cd"]).fuzzy_matches
      = [mkFuzzy nkAb nkCd 80] ∧
    (70 : ℚ) / 100 ≤ (mkFuzzy nkAb nkCd 80).confidence ∧
    (mkFuzzy nkAb nkCd 80).confidence ≤ 1 := by
  have hlist : (matchKeywords (fun _ _ => 80) 70 [rec1 "ab"] [rec1 "cd"]).fuzzy_matches
      = [mkFuzzy nkAb nkCd 80] := rfl
  have h := c10_fuzzy_confidence (fun _ _ => 80) 70 [rec1 "ab"] [rec1 "cd"]
    (fun _ _ => by norm_num) (mkFuzzy nkAb nkCd 80)
    (by rw [hlist]; exact List.mem_singleton_self _)
  exact ⟨hlist, h.2.1, h.2.2⟩

theorem mem_findPartMatches_spec {sim : String → String → ℕ} {t : ℕ}
    {R J : List NK} {m : Match} (hm : m ∈ findPartMatches sim t R J) :
    ∃ r j, r ∈ partResumeCands sim t R J ∧ j ∈ partJobCands R J ∧ m = mkPart r j ∧
      isPartMatch r.normalized j.normalized = true := by
  unfold findPartMatches at hm
  obtain ⟨r, j, hmk, hr, hj, hpm⟩ := mem_partLoop_spec _ _ [] [] m hm
  exact ⟨r, j, hr, hj, hmk, hpm⟩

theorem mem_missing_strings {J : List NK} {ex fz pt : List Match} {s : String}
    (h : s ∈ (findMissingKeywords J ex fz pt).map Missing.normalized) :
    s ∉ ex.map Match.normalized_job ∧ s ∉ fz.map Match.normalized_job ∧
      s ∉ pt.map Match.normalized_job := by
  obtain ⟨miss, hmiss, rfl⟩ := List.mem_map.mp h
  unfold findMissingKeywords at hmiss
  obtain ⟨j, _, hsome⟩ := List.mem_filterMap.mp hmiss
  by_cases hmem : j.normalized ∈ (ex.map Match.normalized_job ++
      fz.map Match.normalized_job ++ pt.map Match.normalized_job)
  · rw [if_pos hmem] at hsome
    exact absurd hsome (by simp)
  · rw [if_neg hmem] at hsome
    obtain rfl := Option.some.inj hsome
    simp only [List.mem_append, not_or] at hmem
    exact ⟨hmem.1.1, hmem.1.2, hmem.2⟩

/-- C1 (amended): in every run, a job-keyword instance appears in at most
one of the exact and fuzzy outcomes, at most one of the exact and partial
outcomes, and never both in a match tier and in missing; however a job
keyword NOT matched exactly may appear in both the fuzzy and the partial
outcome, because the partial stage does not exclude fuzzy job-side
consumption. -/
theorem c1_tier_disjointness_amended (sim : String → String → ℕ) (t : ℕ)
    (resumeRaw jobRaw : List KeywordRecord) :
    (∀ s ∈ (matchKeywords sim t resumeRaw jobRaw).exact_matches.map Match.normalized_job,
      s ∉ (matchKeywords sim t resumeRaw jobRaw).fuzzy_matches.map Match.normalized_job ∧
      s ∉ (matchKeywords sim t resumeRaw jobRaw).part_matches.map Match.normalized_job ∧
      s ∉ (matchKeywords sim t resumeRaw jobRaw).missing_keywords.map Missing.normalized) ∧
    (∀ s ∈ (matchKeywords sim t resumeRaw jobRaw).fuzzy_matches.map Match.normalized_job,
      s ∉ (matchKeywords sim t resumeRaw jobRaw).missing_keywords.map Missing.normalized) ∧
    (∀ s ∈ (matchKeywords sim t resumeRaw jobRaw).part_matches.map Match.normalized_job,
      s ∉ (matchKeywords sim t resumeRaw jobRaw).missing_keywords.map Missing.normalized) := by
  refine ⟨fun s hs => ⟨?_, ?_, ?_⟩, fun s hs hc => ?_, fun s hs hc => ?_⟩
  · intro hc
    obtain ⟨m, hm, rfl⟩ := List.mem_map.mp hc
    obtain ⟨r, j, -, -, rfl, -, -, hnotex, -⟩ := mem_findFuzzyMatches_spec hm
    exact hnotex hs
  · intro hc
    obtain ⟨m, hm, rfl⟩ := List.mem_map.mp hc
    obtain ⟨r, j, -, hj, rfl, -⟩ := mem_findPartMatches_spec hm
    rw [partJobCands, List.mem_filter, decide_eq_true_eq] at hj
    exact hj.2 hs
  · intro hc
    exact (mem_missing_strings hc).1 hs
  · exact (mem_missing_strings hc).2.1 hs
  · exact (mem_missing_strings hc).2.2 hs

/-- C1 counterexample: in the run with resume `["pythn", "python dev"]`
and job `["python"]` at threshold 70, the single job-keyword instance
`"python"` is reported both as the job side of a fuzzy match and as the
job side of a partial match. -/
theorem c1_counterexample :
    (matchKeywords fuzzSim 70 cR cJ).fuzzy_matches.map Match.normalized_job = ["python"] ∧
    (matchKeywords fuzzSim 70 cR cJ).part_matches.map Match.normalized_job = ["python"] := by
  exact ⟨by decide, by decide⟩

/-- Witness for C1 at a concrete input: in the run with resume `["ab"]`
and job `["ab"]`, the exactly matched string `"ab"` is in no other tier
and not missing. -/
theorem c1_witness :
    "ab" ∉ (matchKeywords fuzzSim 70 [rec1 "ab"] [rec1 "ab"]).fuzzy_matches.map
      Match.normalized_job ∧
    "ab" ∉ (matchKeywords fuzzSim 70 [rec1 "ab"] [rec1 "ab"]).part_matches.map
      Match.normalized_job ∧
    "ab" ∉ (matchKeywords fuzzSim 70 [rec1 "ab"] [rec1 "ab"]).missing_keywords.map
      Missing.normalized := by
  have hex : "ab" ∈ (matchKeywords fuzzSim 70 [rec1 "ab"] [rec1 "ab"]).exact_matches.map
      Match.normalized_job := by decide
  exact (c1_tier_disjointness_amended fuzzSim 70 [rec1 "ab"] [rec1 "ab"]).1 "ab" hex

/-! ### Counting and summation lemmas for the score bound -/

theorem sum_map_const_of (l : List Match) (f : Match → ℚ) (c : ℚ)
    (h : ∀ m ∈ l, f m = c) : (l.map f).sum = l.length * c := by
  induction l with
  | nil => simp
  | cons a l ih =>
    simp only [List.map_cons, List.sum_cons, List.length_cons]
    rw [h a (List.mem_cons_self a l), ih fun m hm => h m (List.mem_cons_of_mem _ hm)]
    push_cast
    ring

theorem sum_map_le_const (l : List Match) (f : Match → ℚ) (c : ℚ)
    (h : ∀ m ∈ l, f m ≤ c) : (l.map f).sum ≤ l.length * c := by
  induction l with
  | nil => simp
  | cons a l ih =>
    simp only [List.map_cons, List.sum_cons, List.length_cons]
    have h1 := h a (List.mem_cons_self a l)
    have h2 := ih fun m hm => h m (List.mem_cons_of_mem _ hm)
    push_cast
    nlinarith [h1, h2]

theorem sum_map_nonneg_of (l : List Match) (f : Match → ℚ)
    (h : ∀ m ∈ l, 0 ≤ f m) : 0 ≤ (l.map f).sum := by
  apply List.sum_nonneg
  intro x hx
  obtain ⟨m, hm, rfl⟩ := List.mem_map.mp hx
  exact h m hm

theorem fuzzyLoop_job_nodup (sim : String → String → ℕ) (t : ℕ) (jf : List NK) :
    ∀ (rs : List NK) (procR procJ : List String),
      ((fuzzyLoop sim t jf rs procR procJ).map Match.normalized_job).Nodup ∧
      ∀ s ∈ (fuzzyLoop sim t jf rs procR procJ).map Match.normalized_job, s ∉ procJ
  | [], _, _ => by simp [fuzzyLoop]
  | r :: rs, procR, procJ => by
    rw [fuzzyLoop]
    by_cases h1 : r.normalized ∈ procR
    · rw [if_pos h1]
      exact fuzzyLoop_job_nodup sim t jf rs procR procJ
    · rw [if_neg h1]
      cases hf : bestFuzzy sim t r.normalized procJ jf none with
      | none => exact fuzzyLoop_job_nodup sim t jf rs procR procJ
      | some p =>
        obtain ⟨j, rt⟩ := p
        obtain ⟨hnd, hnp⟩ :=
          fuzzyLoop_job_nodup sim t jf rs (r.normalized :: procR) (j.normalized :: procJ)
        have hjnp : j.normalized ∉ procJ :=
          ((c4_fuzzy_emission_amended sim t r.normalized procJ jf).2 j rt hf).1
        constructor
        · rw [List.map_cons, List.nodup_cons]
          exact ⟨fun hc => (hnp _ hc) (List.mem_cons_self _ _), hnd⟩
        · intro s hs
          rcases List.mem_cons.mp hs with rfl | hs'
          · exact hjnp
          · exact fun hc => (hnp s hs') (List.mem_cons_of_mem _ hc)

theorem partLoop_job_nodup :
    ∀ (rs jobs : List NK) (procR procJ : List String),
      ((partLoop rs jobs procR procJ).map Match.normalized_job).Nodup ∧
      ∀ s ∈ (partLoop rs jobs procR procJ).map Match.normalized_job, s ∉ procJ
  | [], _, _, _ => by simp [partLoop]
  | r :: rs, jobs, procR, procJ => by
    rw [partLoop]
    by_cases h1 : r.normalized ∈ procR
    · rw [if_pos h1]
      exact partLoop_job_nodup rs jobs procR procJ
    · rw [if_neg h1]
      cases hf : partFind r.normalized procJ jobs with
      | none => exact partLoop_job_nodup rs jobs procR procJ
      | some j =>
        obtain ⟨hnd, hnp⟩ := partLoop_job_nodup rs jobs (r.normalized :: procR)
          (j.normalized :: procJ)
        have hjnp : j.normalized ∉ procJ := by
          have hp := List.find?_some hf
          rw [Bool.and_eq_true, decide_eq_true_eq] at hp
          exact hp.1
        constructor
        · rw [List.map_cons, List.nodup_cons]
          exact ⟨fun hc => (hnp _ hc) (List.mem_cons_self _ _), hnd⟩
        · intro s hs
          rcases List.mem_cons.mp hs with rfl | hs'
          · exact hjnp
          · exact fun hc => (hnp s hs') (List.mem_cons_of_mem _ hc)

theorem exact_count_eq (R J : List NK) :
    (findExactMatches R J).length =
      ((R.map NK.normalized).toFinset ∩ (J.map NK.normalized).toFinset).card := by
  have h1 : (findExactMatches R J).length = (exactStrings R J).length := by
    rw [← findExactMatches_map_job R J, List.length_map]
  have h2 : (exactStrings R J).toFinset =
      (R.map NK.normalized).toFinset ∩ (J.map NK.normalized).toFinset := by
    ext s
    rw [List.mem_toFinset, mem_exactStrings, Finset.mem_inter, List.mem_toFinset,
      List.mem_toFinset]
  rw [h1, ← List.toFinset_card_of_nodup (exactStrings_nodup R J), h2]

theorem fuzzy_count_le (sim : String → String → ℕ) (t : ℕ) (R J : List NK) :
    (findFuzzyMatches sim t R J).length ≤
      ((J.map NK.normalized).toFinset \
        ((R.map NK.normalized).toFinset ∩ (J.map NK.normalized).toFinset)).card := by
  have hlen : (findFuzzyMatches sim t R J).length =
      ((findFuzzyMatches sim t R J).map Match.normalized_job).length :=
    (List.length_map _ _).symm
  have hnd : ((findFuzzyMatches sim t R J).map Match.normalized_job).Nodup := by
    unfold findFuzzyMatches
    exact (fuzzyLoop_job_nodup sim t _ _ [] []).1
  have hsub : ((findFuzzyMatches sim t R J).map Match.normalized_job).toFinset ⊆
      (J.map NK.normalized).toFinset \
        ((R.map NK.normalized).toFinset ∩ (J.map NK.normalized).toFinset) := by
    intro s hs
    rw [List.mem_toFinset] at hs
    obtain ⟨m, hm, rfl⟩ := List.mem_map.mp hs
    obtain ⟨r, j, -, hjJ, rfl, -, -, hnotex, -⟩ := mem_findFuzzyMatches_spec hm
    have hjmem : (mkFuzzy r j (sim r.normalized j.normalized)).normalized_job
        ∈ J.map NK.normalized := List.mem_map_of_mem NK.normalized hjJ
    rw [Finset.mem_sdiff, List.mem_toFinset]
    refine ⟨hjmem, fun hc => ?_⟩
    rw [Finset.mem_inter, List.mem_toFinset, List.mem_toFinset] at hc
    rw [findExactMatches_map_job] at hnotex
    exact hnotex (mem_exactStrings.mpr hc)
  calc (findFuzzyMatches sim t R J).length
      = ((findFuzzyMatches sim t R J).map Match.normalized_job).toFinset.card := by
        rw [List.toFinset_card_of_nodup hnd, hlen]
    _ ≤ _ := Finset.card_le_card hsub

theorem part_count_le (sim : String → String → ℕ) (t : ℕ) (R J : List NK) :
    (findPartMatches sim t R J).length ≤
      ((J.map NK.normalized).toFinset \
        ((R.map NK.normalized).toFinset ∩ (J.map NK.normalized).toFinset)).card := by
  have hlen : (findPartMatches sim t R J).length =
      ((findPartMatches sim t R J).map Match.normalized_job).length :=
    (List.length_map _ _).symm
  have hnd : ((findPartMatches sim t R J).map Match.normalized_job).Nodup := by
    unfold findPartMatches
    exact (partLoop_job_nodup _ _ [] []).1
  have hsub : ((findPartMatches sim t R J).map Match.normalized_job).toFinset ⊆
      (J.map NK.normalized).toFinset \
        ((R.map NK.normalized).toFinset ∩ (J.map NK.normalized).toFinset) := by
    intro s hs
    rw [List.mem_toFinset] at hs
    obtain ⟨m, hm, rfl⟩ := List.mem_map.mp hs
    obtain ⟨r, j, -, hj, rfl, -⟩ := mem_findPartMatches_spec hm
    rw [partJobCands, List.mem_filter, decide_eq_true_eq] at hj
    have hjmem : (mkPart r j).normalized_job ∈ J.map NK.normalized :=
      List.mem_map_of_mem NK.normalized hj.1
    rw [Finset.mem_sdiff, List.mem_toFinset]
    refine ⟨hjmem, fun hc => ?_⟩
    rw [Finset.mem_inter, List.mem_toFinset, List.mem_toFinset] at hc
    rw [findExactMatches_map_job] at hj
    exact hj.2 (mem_exactStrings.mpr hc)
  calc (findPartMatches sim t R J).length
      = ((findPartMatches sim t R J).map Match.normalized_job).toFinset.card := by
        rw [List.toFinset_card_of_nodup hnd, hlen]
    _ ≤ _ := Finset.card_le_card hsub

theorem lcsAux_le : ∀ (fuel : ℕ) (a b : List Char),
    lcsAux fuel a b ≤ min a.length b.length
  | 0, _, _ => by simp [lcsAux]
  | _ + 1, [], _ => by simp [lcsAux]
  | _ + 1, _ :: _, [] => by simp [lcsAux]
  | fuel + 1, a :: as, b :: bs => by
    rw [lcsAux]
    by_cases h : a = b
    · rw [if_pos h]
      have := lcsAux_le fuel as bs
      simp only [List.length_cons]
      omega
    · rw [if_neg h]
      have h1 := lcsAux_le fuel (a :: as) bs
      have h2 := lcsAux_le fuel as (b :: bs)
      simp only [List.length_cons] at *
      omega

/-- The modelled similarity never exceeds 100, as `fuzz.ratio` never
does. -/
theorem fuzzSim_le_100 (s t : String) : fuzzSim s t ≤ 100 := by
  unfold fuzzSim lcsLen
  by_cases hS : s.data.length + t.data.length = 0
  · rw [if_pos hS]
  · rw [if_neg hS]
    have hL := lcsAux_le (s.data.length + t.data.length) s.data t.data
    rw [Nat.lt_succ_iff.symm, Nat.div_lt_iff_lt_mul (by omega)]
    omega

theorem calculateScores_overall (ex fz pt : List Match) (totalR totalJ : ℕ) :
    (calculateScores ex fz pt totalR totalJ).overall_score =
      if ((totalJ : ℚ) * EXACT_MATCH_WEIGHT) > 0 then
        ((((ex.map fun m => m.weight * m.confidence).sum +
            (fz.map fun m => m.weight * m.confidence).sum +
            (pt.map fun m => m.weight * m.confidence).sum)) /
          ((totalJ : ℚ) * EXACT_MATCH_WEIGHT)) * 100
      else 0.0 := rfl

theorem calculateScores_overall_bounds (ex fz pt : List Match) (totalR totalJ : ℕ)
    (h0 : 0 ≤ (ex.map fun m => m.weight * m.confidence).sum +
        (fz.map fun m => m.weight * m.confidence).sum +
        (pt.map fun m => m.weight * m.confidence).sum)
    (hub : (ex.map fun m => m.weight * m.confidence).sum +
        (fz.map fun m => m.weight * m.confidence).sum +
        (pt.map fun m => m.weight * m.confidence).sum ≤ (29 / 25 : ℚ) * totalJ) :
    0 ≤ (calculateScores ex fz pt totalR totalJ).overall_score ∧
      (calculateScores ex fz pt totalR totalJ).overall_score ≤ 116 := by
  rw [calculateScores_overall]
  by_cases hJ : ((totalJ : ℚ) * EXACT_MATCH_WEIGHT) > 0
  · rw [if_pos hJ]
    have hM : ((totalJ : ℚ) * EXACT_MATCH_WEIGHT) = (totalJ : ℚ) := by
      norm_num [EXACT_MATCH_WEIGHT]
    rw [hM] at hJ ⊢
    constructor
    · exact mul_nonneg (div_nonneg h0 (le_of_lt hJ)) (by norm_num)
    · rw [div_mul_eq_mul_div, div_le_iff₀ hJ]
      nlinarith [hub, hJ]
  · rw [if_neg hJ]
    norm_num

theorem exact_weight_conf (R J : List NK) :
    ∀ m ∈ findExactMatches R J, m.weight * m.confidence = 1 := by
  intro m hm
  obtain ⟨r, j, -, -, hmk⟩ := mem_findExactMatches_spec hm
  rw [hmk]
  show EXACT_MATCH_WEIGHT * (1.0 : ℚ) = 1
  norm_num [EXACT_MATCH_WEIGHT]

theorem fuzzy_weight_conf_le (sim : String → String → ℕ) (t : ℕ) (R J : List NK)
    (hsim : ∀ a b, sim a b ≤ 100) :
    ∀ m ∈ findFuzzyMatches sim t R J, m.weight * m.confidence ≤ 0.8 := by
  intro m hm
  obtain ⟨r, j, -, -, rfl, -, -, -, -⟩ := mem_findFuzzyMatches_spec hm
  have hr100 : (sim r.normalized j.normalized : ℚ) ≤ 100 := by
    exact_mod_cast hsim r.normalized j.normalized
  show FUZZY_MATCH_WEIGHT * ((sim r.normalized j.normalized : ℚ) / 100) ≤ 0.8
  rw [FUZZY_MATCH_WEIGHT]
  nlinarith

theorem fuzzy_weight_conf_nonneg (sim : String → String → ℕ) (t : ℕ) (R J : List NK) :
    ∀ m ∈ findFuzzyMatches sim t R J, 0 ≤ m.weight * m.confidence := by
  intro m hm
  obtain ⟨r, j, -, -, rfl, -, -, -, -⟩ := mem_findFuzzyMatches_spec hm
  show 0 ≤ FUZZY_MATCH_WEIGHT * ((sim r.normalized j.normalized : ℚ) / 100)
  rw [FUZZY_MATCH_WEIGHT]
  positivity

theorem part_weight_conf (sim : String → String → ℕ) (t : ℕ) (R J : List NK) :
    ∀ m ∈ findPartMatches sim t R J, m.weight * m.confidence = 9 / 25 := by
  intro m hm
  obtain ⟨r, j, -, -, rfl, -⟩ := mem_findPartMatches_spec hm
  show PART_MATCH_WEIGHT * (0.6 : ℚ) = 9 / 25
  norm_num [PART_MATCH_WEIGHT]

theorem weighted_sum_bound (sim : String → String → ℕ) (t : ℕ) (R J : List NK)
    (hsim : ∀ a b, sim a b ≤ 100) :
    0 ≤ ((findExactMatches R J).map fun m => m.weight * m.confidence).sum +
        ((findFuzzyMatches sim t R J).map fun m => m.weight * m.confidence).sum +
        ((findPartMatches sim t R J).map fun m => m.weight * m.confidence).sum ∧
      ((findExactMatches R J).map fun m => m.weight * m.confidence).sum +
        ((findFuzzyMatches sim t R J).map fun m => m.weight * m.confidence).sum +
        ((findPartMatches sim t R J).map fun m => m.weight * m.confidence).sum ≤
        (29 / 25 : ℚ) * J.length := by
  have hSex := sum_map_const_of (findExactMatches R J) _ 1 (exact_weight_conf R J)
  have hSfz := sum_map_le_const (findFuzzyMatches sim t R J) _ 0.8
    (fuzzy_weight_conf_le sim t R J hsim)
  have hSfz0 := sum_map_nonneg_of (findFuzzyMatches sim t R J) _
    (fuzzy_weight_conf_nonneg sim t R J)
  have hSpt := sum_map_const_of (findPartMatches sim t R J) _ (9 / 25)
    (part_weight_conf sim t R J)
  have hE := exact_count_eq R J
  have hF := fuzzy_count_le sim t R J
  have hP := part_count_le sim t R J
  have hsubJ : ((R.map NK.normalized).toFinset ∩ (J.map NK.normalized).toFinset) ⊆
      (J.map NK.normalized).toFinset := Finset.inter_subset_right
  have hsd : ((J.map NK.normalized).toFinset \
      ((R.map NK.normalized).toFinset ∩ (J.map NK.normalized).toFinset)).card =
      (J.map NK.normalized).toFinset.card -
        ((R.map NK.normalized).toFinset ∩ (J.map NK.normalized).toFinset).card :=
    Finset.card_sdiff hsubJ
  have hEleD : ((R.map NK.normalized).toFinset ∩ (J.map NK.normalized).toFinset).card ≤
      (J.map NK.normalized).toFinset.card := Finset.card_le_card hsubJ
  have hDle : (J.map NK.normalized).toFinset.card ≤ J.length := by
    calc (J.map NK.normalized).toFinset.card ≤ (J.map NK.normalized).length :=
          (J.map NK.normalized).toFinset_card_le
      _ = J.length := List.length_map J NK.normalized
  rw [hsd] at hF hP
  -- cast the counting facts to ℚ
  have hEq : ((findExactMatches R J).length : ℚ) =
      (((R.map NK.normalized).toFinset ∩ (J.map NK.normalized).toFinset).card : ℚ) := by
    exact_mod_cast hE
  have hFq : ((findFuzzyMatches sim t R J).length : ℚ) ≤
      ((J.map NK.normalized).toFinset.card : ℚ) -
        (((R.map NK.normalized).toFinset ∩ (J.map NK.normalized).toFinset).card : ℚ) := by
    rw [← Nat.cast_sub hEleD]
    exact_mod_cast hF
  have hPq : ((findPartMatches sim t R J).length : ℚ) ≤
      ((J.map NK.normalized).toFinset.card : ℚ) -
        (((R.map NK.normalized).toFinset ∩ (J.map NK.normalized).toFinset).card : ℚ) := by
    rw [← Nat.cast_sub hEleD]
    exact_mod_cast hP
  have hDq : ((J.map NK.normalized).toFinset.card : ℚ) ≤ (J.length : ℚ) := by
    exact_mod_cast hDle
  have hE0 : (0 : ℚ) ≤
      (((R.map NK.normalized).toFinset ∩ (J.map NK.normalized).toFinset).card : ℚ) := by
    positivity
  constructor
  · have h1 : (0 : ℚ) ≤ ((findExactMatches R J).map fun m => m.weight * m.confidence).sum := by
      rw [hSex]
      positivity
    have h3 : (0 : ℚ) ≤ ((findPartMatches sim t R J).map fun m => m.weight * m.confidence).sum := by
      rw [hSpt]
      positivity
    linarith
  · rw [hSex, hSpt]
    have hfz2 : ((findFuzzyMatches sim t R J).map fun m => m.weight * m.confidence).sum ≤
        ((findFuzzyMatches sim t R J).length : ℚ) * 0.8 := hSfz
    nlinarith [hEq, hFq, hPq, hDq, hE0, hfz2]

/-- C2 (amended): for every pair of input keyword lists and every fuzzy
threshold, the overall_score lies in the interval from 0 to 116 — NOT
always in [0,100] as claimed: a job keyword left unmatched by the exact
stage can be consumed by both the fuzzy stage and the partial stage
(whose job candidates exclude only exact consumption), so one job keyword
can contribute up to 0.8 + 0.36 weighted points, bounding the score by
116 instead of 100.  The similarity function is assumed bounded by 100 as
`fuzz.ratio` is. -/
theorem c2_overall_score_bounds_amended (sim : String → String → ℕ) (t : ℕ)
    (resumeRaw jobRaw : List KeywordRecord)
    (hsim : ∀ a b, sim a b ≤ 100) :
    0 ≤ (matchKeywords sim t resumeRaw jobRaw).scores.overall_score ∧
      (matchKeywords sim t resumeRaw jobRaw).scores.overall_score ≤ 116 := by
  have hscores : (matchKeywords sim t resumeRaw jobRaw).scores =
      calculateScores
        (findExactMatches (normalizeKeywords resumeRaw) (normalizeKeywords jobRaw))
        (findFuzzyMatches sim t (normalizeKeywords resumeRaw) (normalizeKeywords jobRaw))
        (findPartMatches sim t (normalizeKeywords resumeRaw) (normalizeKeywords jobRaw))
        (normalizeKeywords resumeRaw).length (normalizeKeywords jobRaw).length := rfl
  rw [hscores]
  obtain ⟨h0, hub⟩ :=
    weighted_sum_bound sim t (normalizeKeywords resumeRaw) (normalizeKeywords jobRaw) hsim
  exact calculateScores_overall_bounds _ _ _ _ _ h0 hub

/-- C2 counterexample: the run with resume `["pythn", "python dev"]` and
job `["python"]` at threshold 70 (with the modelled `fuzz.ratio`, which
gives 91 for `"pythn"` against `"python"`) has overall_score 108.8,
outside [0,100]: the one job keyword is consumed by both the fuzzy and
the partial stage, for weighted score 0.8·0.91 + 0.36 = 1.088 against a
maximum possible score of 1. -/
theorem c2_counterexample :
    (matchKeywords fuzzSim 70 cR cJ).scores.overall_score = 544 / 5 ∧
    ¬((matchKeywords fuzzSim 70 cR cJ).scores.overall_score ≤ 100) := by
  have h : (matchKeywords fuzzSim 70 cR cJ).scores =
      calculateScores [] [mkFuzzy nkPythn nkPython 91] [mkPart nkPyDev nkPython] 2 1 := rfl
  have hval : (matchKeywords fuzzSim 70 cR cJ).scores.overall_score = 544 / 5 := by
    rw [h]
    simp [calculateScores, mkFuzzy, mkPart, FUZZY_MATCH_WEIGHT, PART_MATCH_WEIGHT,
      EXACT_MATCH_WEIGHT]
    norm_num
  refine ⟨hval, ?_⟩
  rw [hval]
  norm_num

/-- Witness for C2 at a concrete input: the bounds hold for the concrete
run used throughout, whose overall_score is 108.8. -/
theorem c2_witness :
    0 ≤ (matchKeywords fuzzSim 70 cR cJ).scores.overall_score ∧
      (matchKeywords fuzzSim 70 cR cJ).scores.overall_score ≤ 116 :=
  c2_overall_score_bounds_amended fuzzSim 70 cR cJ fun a b => fuzzSim_le_100 a b

/-! ### Empty-input behaviour -/

theorem findExactMatches_nil_J (R : List NK) : findExactMatches R [] = [] := by
  unfold findExactMatches exactStrings
  simp

theorem fuzzyLoop_nil_jobs (sim : String → String → ℕ) (t : ℕ) :
    ∀ (rs : List NK) (procR procJ : List String), fuzzyLoop sim t [] rs procR procJ = []
  | [], _, _ => rfl
  | r :: rs, procR, procJ => by
    rw [fuzzyLoop]
    by_cases h : r.normalized ∈ procR
    · rw [if_pos h]
      exact fuzzyLoop_nil_jobs sim t rs procR procJ
    · rw [if_neg h]
      exact fuzzyLoop_nil_jobs sim t rs procR procJ

theorem partLoop_nil_jobs :
    ∀ (rs : List NK) (procR procJ : List String), partLoop rs [] procR procJ = []
  | [], _, _ => rfl
  | r :: rs, procR, procJ => by
    rw [partLoop]
    by_cases h : r.normalized ∈ procR
    · rw [if_pos h]
      exact partLoop_nil_jobs rs procR procJ
    · rw [if_neg h]
      exact partLoop_nil_jobs rs procR procJ

theorem calculateScores_zero_J (totalR : ℕ) :
    (calculateScores [] [] [] totalR 0).match_percentage = 0 ∧
    (calculateScores [] [] [] totalR 0).coverage_percentage = 0 ∧
    (calculateScores [] [] [] totalR 0).overall_score = 0 ∧
    (calculateScores [] [] [] totalR 0).resume_utilization = 0 := by
  refine ⟨by norm_num [calculateScores], by norm_num [calculateScores], ?_, ?_⟩
  · show (if ((0 : ℕ) : ℚ) * EXACT_MATCH_WEIGHT > 0 then
        ((0 + 0 + 0) / (((0 : ℕ) : ℚ) * EXACT_MATCH_WEIGHT)) * 100 else 0.0) = 0
    norm_num
  · show (if totalR > 0 then ((((0 : ℕ) : ℚ)) / (totalR : ℚ)) * 100 else 0.0) = 0
    split <;> norm_num

/-- C8: with an empty job keyword list, the whole run returns empty match
and missing lists and zeroed percentage fields without any division
error (divisions are guarded); with an empty resume keyword list,
resume_utilization is 0. -/
theorem c8_empty_inputs_zeroed (sim : String → String → ℕ) (t : ℕ) :
    (∀ resumeRaw : List KeywordRecord,
      (matchKeywords sim t resumeRaw []).exact_matches = [] ∧
      (matchKeywords sim t resumeRaw []).fuzzy_matches = [] ∧
      (matchKeywords sim t resumeRaw []).part_matches = [] ∧
      (matchKeywords sim t resumeRaw []).missing_keywords = [] ∧
      (matchKeywords sim t resumeRaw []).scores.match_percentage = 0 ∧
      (matchKeywords sim t resumeRaw []).scores.coverage_percentage = 0 ∧
      (matchKeywords sim t resumeRaw []).scores.overall_score = 0 ∧
      (matchKeywords sim t resumeRaw []).scores.resume_utilization = 0 ∧
      (matchKeywords sim t resumeRaw []).match_percentage = 0) ∧
    (∀ jobRaw : List KeywordRecord,
      (matchKeywords sim t [] jobRaw).scores.resume_utilization = 0) := by
  constructor
  · intro resumeRaw
    have hex : (matchKeywords sim t resumeRaw []).exact_matches = [] :=
      findExactMatches_nil_J (normalizeKeywords resumeRaw)
    have hfz : (matchKeywords sim t resumeRaw []).fuzzy_matches = [] :=
      fuzzyLoop_nil_jobs sim t _ [] []
    have hpt : (matchKeywords sim t resumeRaw []).part_matches = [] :=
      partLoop_nil_jobs _ [] []
    have hsc : (matchKeywords sim t resumeRaw []).scores =
        calculateScores (matchKeywords sim t resumeRaw []).exact_matches
          (matchKeywords sim t resumeRaw []).fuzzy_matches
          (matchKeywords sim t resumeRaw []).part_matches
          (normalizeKeywords resumeRaw).length 0 := rfl
    rw [hex, hfz, hpt] at hsc
    obtain ⟨h1, h2, h3, h4⟩ := calculateScores_zero_J (normalizeKeywords resumeRaw).length
    have hmp : (matchKeywords sim t resumeRaw []).match_percentage =
        (matchKeywords sim t resumeRaw []).scores.overall_score := rfl
    exact ⟨hex, hfz, hpt, rfl, by rw [hsc]; exact h1, by rw [hsc]; exact h2,
      by rw [hsc]; exact h3, by rw [hsc]; exact h4, by rw [hmp, hsc]; exact h3⟩
  · intro jobRaw
    have hsc : (matchKeywords sim t [] jobRaw).scores =
        calculateScores (matchKeywords sim t [] jobRaw).exact_matches
          (matchKeywords sim t [] jobRaw).fuzzy_matches
          (matchKeywords sim t [] jobRaw).part_matches
          0 (normalizeKeywords jobRaw).length := rfl
    rw [hsc]
    show (if (0 : ℕ) > 0 then
        ((((matchKeywords sim t [] jobRaw).exact_matches.length +
            (matchKeywords sim t [] jobRaw).fuzzy_matches.length +
            (matchKeywords sim t [] jobRaw).part_matches.length : ℕ) : ℚ) / ((0 : ℕ) : ℚ)) * 100
      else 0.0) = 0
    norm_num

theorem calculateScores_matchpct (ex fz pt : List Match) (totalR totalJ : ℕ) :
    (calculateScores ex fz pt totalR totalJ).match_percentage =
      if totalJ > 0 then
        (((ex.length + fz.length + pt.length : ℕ) : ℚ) / (totalJ : ℚ)) * 100
      else 0.0 := rfl

/-- C9: the top-level result field match_percentage equals the
aggregator's overall_score (the weighted score normalized by the job
count), not the aggregator's own match_percentage field (the unweighted
count ratio); whenever a fuzzy or partial match exists the overall_score
is strictly below the aggregator's match_percentage (similarity bounded
by 100 as for `fuzz.ratio`). -/
theorem c9_match_percentage_is_overall (sim : String → String → ℕ) (t : ℕ)
    (resumeRaw jobRaw : List KeywordRecord) :
    (matchKeywords sim t resumeRaw jobRaw).match_percentage =
      (matchKeywords sim t resumeRaw jobRaw).scores.overall_score ∧
    ((∀ a b, sim a b ≤ 100) →
      ((matchKeywords sim t resumeRaw jobRaw).fuzzy_matches ≠ [] ∨
        (matchKeywords sim t resumeRaw jobRaw).part_matches ≠ []) →
      (matchKeywords sim t resumeRaw jobRaw).scores.overall_score <
        (matchKeywords sim t resumeRaw jobRaw).scores.match_percentage) := by
  refine ⟨rfl, fun hsim hne => ?_⟩
  have hfzne : (matchKeywords sim t resumeRaw jobRaw).fuzzy_matches =
      findFuzzyMatches sim t (normalizeKeywords resumeRaw) (normalizeKeywords jobRaw) := rfl
  have hptne : (matchKeywords sim t resumeRaw jobRaw).part_matches =
      findPartMatches sim t (normalizeKeywords resumeRaw) (normalizeKeywords jobRaw) := rfl
  rw [hfzne, hptne] at hne
  have hJpos : 0 < (normalizeKeywords jobRaw).length := by
    rcases hne with h | h
    · obtain ⟨m, hm⟩ := List.exists_mem_of_ne_nil _ h
      obtain ⟨r, j, -, hj, -⟩ := mem_findFuzzyMatches_spec hm
      exact List.length_pos.mpr (List.ne_nil_of_mem hj)
    · obtain ⟨m, hm⟩ := List.exists_mem_of_ne_nil _ h
      obtain ⟨r, j, -, hj, -⟩ := mem_findPartMatches_spec hm
      rw [partJobCands, List.mem_filter] at hj
      exact List.length_pos.mpr (List.ne_nil_of_mem hj.1)
  have hFP : 1 ≤ (findFuzzyMatches sim t (normalizeKeywords resumeRaw)
        (normalizeKeywords jobRaw)).length +
      (findPartMatches sim t (normalizeKeywords resumeRaw)
        (normalizeKeywords jobRaw)).length := by
    rcases hne with h | h
    · have := List.length_pos.mpr h
      omega
    · have := List.length_pos.mpr h
      omega
  have hsc : (matchKeywords sim t resumeRaw jobRaw).scores =
      calculateScores
        (findExactMatches (normalizeKeywords resumeRaw) (normalizeKeywords jobRaw))
        (findFuzzyMatches sim t (normalizeKeywords resumeRaw) (normalizeKeywords jobRaw))
        (findPartMatches sim t (normalizeKeywords resumeRaw) (normalizeKeywords jobRaw))
        (normalizeKeywords resumeRaw).length (normalizeKeywords jobRaw).length := rfl
  have hJq : (0 : ℚ) < ((normalizeKeywords jobRaw).length : ℚ) := by exact_mod_cast hJpos
  have hMpos : ((normalizeKeywords jobRaw).length : ℚ) * EXACT_MATCH_WEIGHT > 0 := by
    rw [EXACT_MATCH_WEIGHT]
    norm_num
    exact hJpos
  rw [hsc, calculateScores_matchpct, calculateScores_overall, if_pos hJpos, if_pos hMpos]
  have hM : (((normalizeKeywords jobRaw).length : ℚ) * EXACT_MATCH_WEIGHT) =
      ((normalizeKeywords jobRaw).length : ℚ) := by
    rw [EXACT_MATCH_WEIGHT]
    norm_num
  rw [hM]
  apply mul_lt_mul_of_pos_right _ (by norm_num : (0 : ℚ) < 100)
  rw [div_lt_div_iff_of_pos_right hJq]
  have hSex := sum_map_const_of _ _ 1
    (exact_weight_conf (normalizeKeywords resumeRaw) (normalizeKeywords jobRaw))
  have hSfz := sum_map_le_const _ _ 0.8
    (fuzzy_weight_conf_le sim t (normalizeKeywords resumeRaw) (normalizeKeywords jobRaw) hsim)
  have hSfz0 := sum_map_nonneg_of _ _
    (fuzzy_weight_conf_nonneg sim t (normalizeKeywords resumeRaw) (normalizeKeywords jobRaw))
  have hSpt := sum_map_const_of _ _ (9 / 25)
    (part_weight_conf sim t (normalizeKeywords resumeRaw) (normalizeKeywords jobRaw))
  rw [hSex, hSpt]
  have hFPq : (1 : ℚ) ≤
      ((findFuzzyMatches sim t (normalizeKeywords resumeRaw)
          (normalizeKeywords jobRaw)).length : ℚ) +
        ((findPartMatches sim t (normalizeKeywords resumeRaw)
          (normalizeKeywords jobRaw)).length : ℚ) := by
    exact_mod_cast hFP
  push_cast
  nlinarith [hSfz, hSfz0, hFPq]

/-- Witness for C9 at a concrete input: in the concrete run a fuzzy
match exists and the overall score (108.8) is strictly below the
unweighted count percentage (200). -/
theorem c9_witness :
    (matchKeywords fuzzSim 70 cR cJ).scores.overall_score <
      (matchKeywords fuzzSim 70 cR cJ).scores.match_percentage := by
  apply (c9_match_percentage_is_overall fuzzSim 70 cR cJ).2 fun a b => fuzzSim_le_100 a b
  left
  have h : (matchKeywords fuzzSim 70 cR cJ).fuzzy_matches = [mkFuzzy nkPythn nkPython 91] := rfl
  rw [h]
  exact List.cons_ne_nil _ _

/-- Witness for C5 at a concrete input: one exact match for the one
common string, with the stated fields. -/
theorem c5_witness :
    ((findExactMatches [nkPython] [nkPython]).filter fun m =>
      decide (m.normalized_job = "python")).length = 1 ∧
    (mkExact nkPython nkPython "python").confidence = 1.0 := by
  have hlist : findExactMatches [nkPython] [nkPython]
      = [mkExact nkPython nkPython "python"] := rfl
  constructor
  · rw [(c5_exact_one_match_per_string [nkPython] [nkPython]).1 "python"]
    simp [nkPython]
  · exact ((c5_exact_one_match_per_string [nkPython] [nkPython]).2
      (mkExact nkPython nkPython "python")
      (by rw [hlist]; exact List.mem_singleton_self _)).2.1

end EasyApply
